import Mathlib

/-!
Verification of the safe-npm repository (src/cli.ts and its integration
tests) against its natural-language specification.

The CLI layer (argument handling, the per-dependency resolution loop,
`parsePackageSpec`, `runStrategy`) is embedded directly from `src/cli.ts`.
The version resolver (`resolveSafeVersion`, imported from `./resolver.js`)
is not part of the provided sources, so it is modelled from the
specification's §4.2 algorithm; definitions doing so carry a
`Modelled from the spec:` doc comment.
-/

namespace SafeNpm

/-- A parsed semantic version `major.minor.patch` (pre-release identifiers
are not needed by any scenario in the spec). -/
structure SemVer where
  major : Nat
  minor : Nat
  patch : Nat
deriving DecidableEq, Repr

/-- Strict semantic-version precedence: lexicographic on
(major, minor, patch). -/
def ltVer (a b : SemVer) : Bool :=
  if a.major ≠ b.major then decide (a.major < b.major)
  else if a.minor ≠ b.minor then decide (a.minor < b.minor)
  else decide (a.patch < b.patch)

/-- A version-range expression as the resolver receives it: either the
literal tag request `"latest"`, or a semver range (`*` or a caret range;
these are the forms the spec's scenarios use). -/
inductive RangeExpr where
  | latestTag : RangeExpr
  | star : RangeExpr
  | caret : SemVer → RangeExpr
deriving DecidableEq, Repr

/-- Modelled from the spec: standard semver range satisfaction for the
non-tag range forms (`*` matches everything; `^base` requires `v ≥ base`
within the caret compatibility window). `latestTag` is handled before
range filtering, so it matches nothing here. -/
def satisfies (v : SemVer) (r : RangeExpr) : Bool :=
  match r with
  | .latestTag => false
  | .star => true
  | .caret base =>
      !ltVer v base &&
        (if 0 < base.major then v.major == base.major
         else if 0 < base.minor then v.major == 0 && v.minor == base.minor
         else v.major == 0 && v.minor == 0 && v.patch == base.patch)

/-- Association-list lookup (first entry wins), the shape of a JSON
object / JS `Map` restricted to its lookup behaviour. -/
def lookupA {α β : Type} [DecidableEq α] (k : α) : List (α × β) → Option β
  | [] => none
  | (k', v) :: rest => if k' = k then some v else lookupA k rest

/-- Registry metadata for one package, shaped like the registry's
per-package JSON document: `versions` keys, `publishTimes` (the `time`
object; the pseudo-keys `"created"`/`"modified"` are never version keys
and are omitted), and `distTags`. A publish time of `none` models an
entry whose ISO-8601 string does not parse to a valid timestamp; a
version absent from `publishTimes` models a missing entry. Timestamps
are milliseconds since the epoch. -/
structure PackageMetadata where
  name : String
  versions : List SemVer
  publishTimes : List (SemVer × Option Int)
  distTags : List (String × SemVer)
deriving DecidableEq, Repr

/-- Modelled from the spec: step 3 of the resolution algorithm — if the
range is the literal `"latest"`, narrow to the version named by
`distTags["latest"]` when it is present among the candidates, otherwise
no match; for any other range, filter the candidates by range
satisfaction. -/
def candidateSet (meta : PackageMetadata) (range : RangeExpr) : List SemVer :=
  match range with
  | .latestTag =>
      match lookupA "latest" meta.distTags with
      | some v => if v ∈ meta.versions then [v] else []
      | none => []
  | r => meta.versions.filter (fun v => satisfies v r)

/-- Modelled from the spec: step 4's per-candidate age test — the
candidate's `publishTimes` entry exists, parses to a valid timestamp,
and that timestamp is strictly earlier than the cutoff; a missing or
unparsable timestamp fails the test. -/
def ageOk (meta : PackageMetadata) (cutoffDate : Int) (v : SemVer) : Bool :=
  match lookupA v meta.publishTimes with
  | some (some t) => decide (t < cutoffDate)
  | _ => false

/-- Modelled from the spec: step 4 — apply the age filter unless
`ignoreAge` is true. -/
def qualifyingSet (meta : PackageMetadata) (range : RangeExpr)
    (cutoffDate : Int) (ignoreAge : Bool) : List SemVer :=
  let cands := candidateSet meta range
  if ignoreAge then cands else cands.filter (ageOk meta cutoffDate)

/-- Highest element of a version list by semver precedence (`none` on the
empty list). -/
def maxVersion : List SemVer → Option SemVer
  | [] => none
  | v :: vs => some (vs.foldl (fun best x => if ltVer best x then x else best) v)

/-- Modelled from the spec: `resolveSafeVersion` (§4.2) on already-fetched
metadata — build candidates, resolve the range, apply the age filter
unless `ignoreAge`, and return the highest survivor, or `null` when none
survive. -/
def resolveSafeVersion (meta : PackageMetadata) (range : RangeExpr)
    (cutoffDate : Int) (ignoreAge : Bool) : Option SemVer :=
  maxVersion (qualifyingSet meta range cutoffDate ignoreAge)

/-- One call's worth of arguments to `resolveSafeVersion`, as assembled at
`cli.ts` line 78: `{ name, range, registry, cutoffDate, ignoreAge }`. -/
structure ResolutionRequest where
  name : String
  range : RangeExpr
  registry : String
  cutoffDate : Int
  ignoreAge : Bool
deriving DecidableEq, Repr

/-- A structured failure record, `interface Failure` of `cli.ts`. -/
structure Failure where
  name : String
  range : RangeExpr
  reason : String
deriving DecidableEq, Repr

/-- The reason string pushed at `cli.ts` line 87 when resolution returns
no version. -/
def noVersionReason : String := "No version satisfies the range and age requirement"

/-- The accumulator of the install action's loop: the `resolved` map (as
its insertion-ordered entry list) and the `failures` array. -/
structure InstallState where
  resolved : List (String × SemVer)
  failures : List Failure
deriving DecidableEq, Repr

/-- One iteration of the `for (const [name, range] of dependencyMap)` loop
(`cli.ts` lines 76–96): a thrown error becomes a failure record carrying
the error's message, a `null` result becomes a failure record with
`noVersionReason`, and a version is entered into the resolved map. The
resolver is abstracted as `res` so that any outcome of
`resolveSafeVersion` (including fetch failures) is covered. -/
def processStep (res : ResolutionRequest → Except String (Option SemVer))
    (st : InstallState) (req : ResolutionRequest) : InstallState :=
  match res req with
  | .error e => { st with failures := st.failures ++ [⟨req.name, req.range, e⟩] }
  | .ok none => { st with failures := st.failures ++ [⟨req.name, req.range, noVersionReason⟩] }
  | .ok (some v) => { st with resolved := st.resolved ++ [(req.name, v)] }

/-- The whole loop of `cli.ts` lines 73–96, starting from the empty
resolved map and failure list. -/
def processRequests (res : ResolutionRequest → Except String (Option SemVer))
    (reqs : List ResolutionRequest) : InstallState :=
  reqs.foldl (processStep res) ⟨[], []⟩

/-- The resolved-map entry a request contributes, if any. -/
def resolvedEntry (res : ResolutionRequest → Except String (Option SemVer))
    (req : ResolutionRequest) : Option (String × SemVer) :=
  match res req with
  | .ok (some v) => some (req.name, v)
  | _ => none

/-- The failure record a request contributes, if any. -/
def failureEntry (res : ResolutionRequest → Except String (Option SemVer))
    (req : ResolutionRequest) : Option Failure :=
  match res req with
  | .error e => some ⟨req.name, req.range, e⟩
  | .ok none => some ⟨req.name, req.range, noVersionReason⟩
  | .ok (some _) => none

/-- The cutoff computation of `cli.ts` lines 52–53:
`cutOffMs = minAgeDays * 24 * 60 * 60 * 1000` and
`cutoffDate = new Date(Date.now() - cutOffMs)`, in epoch milliseconds. -/
def installCutoff (now minAgeDays : Int) : Int :=
  let cutOffMs := minAgeDays * 24 * 60 * 60 * 1000
  now - cutOffMs

/-- The sequence of resolver invocations the install action issues: one
request per dependency entry, each carrying the registry, the cutoff date
of `installCutoff`, and `ignoreAge = ignoreSet.has(name)` (`cli.ts`
lines 76–84). -/
def installRequests (registry : String) (now minAgeDays : Int)
    (ignoreSet : List String) (deps : List (String × RangeExpr)) :
    List ResolutionRequest :=
  deps.map (fun p => ⟨p.1, p.2, registry, installCutoff now minAgeDays,
    ignoreSet.contains p.1⟩)

/-- JS `spec.indexOf(c, start)`: the least index `≥ start` holding `c`. -/
def indexOfFrom (c : Char) (start : Nat) (s : List Char) : Option Nat :=
  ((s.drop start).findIdx? (· == c)).map (· + start)

/-- JS `spec.lastIndexOf(c)`: the greatest index holding `c`. -/
def lastIndexOf (c : Char) (s : List Char) : Option Nat :=
  (s.reverse.findIdx? (· == c)).map (fun i => s.length - 1 - i)

/-- JS `suffix || "latest"`: the empty string is falsy and falls back to
`"latest"`. -/
def orLatest (r : List Char) : List Char :=
  if r = [] then "latest".toList else r

/-- `parsePackageSpec` from `cli.ts` lines 178–197, on the spec string's
character list; the thrown `Error` on an empty spec becomes `Except.error`.
JS `slice(0, i)` is `take i`, `slice(i + 1)` is `drop (i + 1)`, and a
`lastIndexOf` result of `-1` is `none` (the JS guard `lastAt > 0` then
falls through to the `range "latest"` return, as does `lastAt = 0`). -/
def parsePackageSpec (s : List Char) : Except String (List Char × List Char) :=
  match s with
  | [] => .error "Empty package spec provided"
  | c :: rest =>
      if c = '@' then
        match indexOfFrom '@' 1 (c :: rest) with
        | none => .ok (c :: rest, "latest".toList)
        | some atIndex =>
            .ok ((c :: rest).take atIndex, orLatest ((c :: rest).drop (atIndex + 1)))
      else
        match lastIndexOf '@' (c :: rest) with
        | some lastAt =>
            if 0 < lastAt then
              .ok ((c :: rest).take lastAt, orLatest ((c :: rest).drop (lastAt + 1)))
            else .ok (c :: rest, "latest".toList)
        | none => .ok (c :: rest, "latest".toList)

/-- The two supported package managers (`type PackageManager`). -/
inductive PackageManager where
  | npm : PackageManager
  | pnpm : PackageManager
deriving DecidableEq, Repr

/-- The `pnpm` block of `package.json`: its `overrides` object (absent or
non-record modelled as `none`) and whatever other configuration fields it
carries. -/
structure PnpmConfig where
  overrides : Option (List (String × String))
  extraFields : List (String × String)
deriving DecidableEq, Repr

/-- The parts of `package.json` the overrides strategy touches or must
leave alone: the npm `overrides` object, the `pnpm` block, and the rest
of the document's fields. -/
structure PackageJsonFile where
  overrides : Option (List (String × String))
  pnpm : Option PnpmConfig
  rest : List (String × String)
deriving DecidableEq, Repr

/-- `major.minor.patch` rendered back to a string. -/
def versionString (v : SemVer) : String :=
  Nat.repr v.major ++ "." ++ Nat.repr v.minor ++ "." ++ Nat.repr v.patch

/-- `Object.fromEntries(resolved.entries())` (`cli.ts` line 229). -/
def overridesFromResolved (resolved : List (String × SemVer)) : List (String × String) :=
  resolved.map (fun p => (p.1, versionString p.2))

/-- JS object spread `{ ...old, ...upd }` on association lists: `old`'s
keys keep their positions (values overwritten by `upd` where present),
then `upd`'s genuinely new keys follow in `upd` order. -/
def jsSpread (old upd : List (String × String)) : List (String × String) :=
  old.map (fun p => (p.1, (lookupA p.1 upd).getD p.2)) ++
    upd.filter (fun p => (lookupA p.1 old).isNone)

/-- The `overrides` installation strategy of `runStrategy` (`cli.ts`
lines 221–248) restricted to its `package.json` rewrite: npm merges the
resolved versions into `pkg.overrides`, pnpm into `pkg.pnpm.overrides`,
each via object spread with the resolved entries winning. -/
def runStrategyOverrides (pm : PackageManager)
    (resolved : List (String × SemVer)) (pkg : PackageJsonFile) : PackageJsonFile :=
  let ov := overridesFromResolved resolved
  match pm with
  | .npm => { pkg with overrides := some (jsSpread (pkg.overrides.getD []) ov) }
  | .pnpm =>
      let pnpmConfig := pkg.pnpm.getD ⟨none, []⟩
      let pnpmOverrides := pnpmConfig.overrides.getD []
      { pkg with pnpm := some ⟨some (jsSpread pnpmOverrides ov), pnpmConfig.extraFields⟩ }

/-- The pnpm overrides table of a `package.json`, empty when absent. -/
def pnpmOverridesOf (pkg : PackageJsonFile) : List (String × String) :=
  (pkg.pnpm.getD ⟨none, []⟩).overrides.getD []

/-- The pnpm extra configuration fields of a `package.json`. -/
def pnpmExtraOf (pkg : PackageJsonFile) : List (String × String) :=
  (pkg.pnpm.getD ⟨none, []⟩).extraFields

/-- One day in milliseconds (`DAY_IN_MS` of the test suite). -/
def dayMs : Int := 24 * 60 * 60 * 1000

/-- A fixed "now" instant for the spec's literal scenarios. -/
def nowMs : Int := 1000 * dayMs

/-- The spec's scenario package `alpha`: versions `1.0.0` (400 days old),
`1.1.0` (150 days old), `1.2.0` (20 days old), with `latest` tagging the
newest, exactly as the integration fixture builds it. -/
def alphaMeta : PackageMetadata :=
  { name := "alpha"
    versions := [⟨1, 0, 0⟩, ⟨1, 1, 0⟩, ⟨1, 2, 0⟩]
    publishTimes :=
      [(⟨1, 0, 0⟩, some (nowMs - 400 * dayMs)),
       (⟨1, 1, 0⟩, some (nowMs - 150 * dayMs)),
       (⟨1, 2, 0⟩, some (nowMs - 20 * dayMs))]
    distTags := [("latest", ⟨1, 2, 0⟩)] }

/-- The spec's scenario package `beta`: only `2.0.0`, 220 days old. -/
def betaMeta : PackageMetadata :=
  { name := "beta"
    versions := [⟨2, 0, 0⟩]
    publishTimes := [(⟨2, 0, 0⟩, some (nowMs - 220 * dayMs))]
    distTags := [("latest", ⟨2, 0, 0⟩)] }

/-- A package whose `latest` dist-tag names a version (`1.2.0`, 20 days
old) that is younger than the cutoff while an older version exists. -/
def staleTagMeta : PackageMetadata :=
  { name := "gamma"
    versions := [⟨1, 0, 0⟩, ⟨1, 2, 0⟩]
    publishTimes :=
      [(⟨1, 0, 0⟩, some (nowMs - 400 * dayMs)),
       (⟨1, 2, 0⟩, some (nowMs - 20 * dayMs))]
    distTags := [("latest", ⟨1, 2, 0⟩)] }

/-- The cutoff instant for `minAgeDays = 90` at `nowMs`. -/
def cutoff90 : Int := nowMs - 90 * dayMs

/-- A sample `package.json` with a pre-existing npm override, a
pre-existing pnpm override and an extra pnpm configuration field. -/
def samplePkg : PackageJsonFile :=
  { overrides := some [("left", "1.0.0")]
    pnpm := some ⟨some [("lp", "2.0.0")], [("onlyBuiltDependencies", "x")]⟩
    rest := [("name", "fixture")] }

theorem ltVer_iff (a b : SemVer) :
    ltVer a b = true ↔
      (a.major < b.major ∨
        (a.major = b.major ∧
          (a.minor < b.minor ∨ (a.minor = b.minor ∧ a.patch < b.patch)))) := by
  unfold ltVer
  split
  · rename_i h
    simp only [decide_eq_true_eq]
    omega
  · rename_i h
    split
    · rename_i h2
      simp only [decide_eq_true_eq]
      omega
    · rename_i h2
      simp only [decide_eq_true_eq]
      omega

theorem ltVer_irrefl (a : SemVer) : ltVer a a = false := by
  by_contra h
  have h' : ltVer a a = true := by
    cases hv : ltVer a a
    · exact absurd hv h
    · rfl
  rw [ltVer_iff] at h'
  omega

theorem ltVer_trans {a b c : SemVer} (hab : ltVer a b = true)
    (hbc : ltVer b c = true) : ltVer a c = true := by
  rw [ltVer_iff] at hab hbc ⊢
  omega

theorem ltVer_connex {a b : SemVer} (h : ltVer a b = false) :
    ltVer b a = true ∨ a = b := by
  by_cases hq : a = b
  · exact Or.inr hq
  · left
    rw [ltVer_iff]
    have h' : ¬ ltVer a b = true := by simp [h]
    rw [ltVer_iff] at h'
    have hne : a.major ≠ b.major ∨ a.minor ≠ b.minor ∨ a.patch ≠ b.patch := by
      by_contra hc
      push_neg at hc
      exact hq (by cases a; cases b; simp_all)
    omega

theorem ltVer_asymm {a b : SemVer} (h : ltVer a b = true) : ltVer b a = false := by
  cases hv : ltVer b a
  · rfl
  · rw [ltVer_iff] at h hv
    omega

theorem ltVer_false_trans {r b u : SemVer} (h1 : ltVer r b = false)
    (h2 : ltVer b u = false) : ltVer r u = false := by
  rcases ltVer_connex h2 with hub | heq
  · cases hv : ltVer r u
    · rfl
    · exact absurd (ltVer_trans hv hub) (by simp [h1])
  · rw [heq] at h1
    exact h1

theorem foldl_max_not_lt (vs : List SemVer) :
    ∀ (a u : SemVer), u = a ∨ u ∈ vs →
    ltVer (vs.foldl (fun best x => if ltVer best x then x else best) a) u = false := by
  induction vs with
  | nil =>
      intro a u hu
      rcases hu with h | h
      · rw [h]
        exact ltVer_irrefl a
      · simp at h
  | cons x vs ih =>
      intro a u hu
      simp only [List.foldl_cons]
      have hbest : ∀ w : SemVer,
          ltVer (if ltVer a x then x else a) w = false →
          ltVer (vs.foldl (fun best y => if ltVer best y then y else best)
            (if ltVer a x then x else a)) w = false := by
        intro w hw
        exact ltVer_false_trans (ih _ _ (Or.inl rfl)) hw
      rcases hu with h | h
      · apply hbest
        rw [h]
        by_cases hax : ltVer a x = true
        · simp only [hax, if_true]
          exact ltVer_asymm hax
        · simp only [Bool.not_eq_true] at hax
          simp [hax]
          exact ltVer_irrefl a
      · rcases List.mem_cons.mp h with h2 | h2
        · apply hbest
          rw [h2]
          by_cases hax : ltVer a x = true
          · simp only [hax, if_true]
            exact ltVer_irrefl x
          · simp only [Bool.not_eq_true] at hax
            simp [hax]
        · exact ih _ _ (Or.inr h2)

theorem foldl_max_mem (vs : List SemVer) :
    ∀ a : SemVer,
    vs.foldl (fun best x => if ltVer best x then x else best) a = a ∨
      vs.foldl (fun best x => if ltVer best x then x else best) a ∈ vs := by
  induction vs with
  | nil =>
      intro a
      exact Or.inl rfl
  | cons x vs ih =>
      intro a
      simp only [List.foldl_cons]
      by_cases hax : ltVer a x = true
      · rcases ih (if ltVer a x then x else a) with h | h
        · rw [h]
          simp only [hax, if_true]
          exact Or.inr (List.mem_cons_self x vs)
        · exact Or.inr (List.mem_cons_of_mem x h)
      · simp only [Bool.not_eq_true] at hax
        rcases ih (if ltVer a x then x else a) with h | h
        · rw [h]
          simp [hax]
        · exact Or.inr (List.mem_cons_of_mem x h)

theorem maxVersion_mem {l : List SemVer} {v : SemVer}
    (h : maxVersion l = some v) : v ∈ l := by
  cases l with
  | nil => simp [maxVersion] at h
  | cons a vs =>
      simp only [maxVersion, Option.some.injEq] at h
      rcases foldl_max_mem vs a with h2 | h2
      · rw [h] at h2; simp [h2]
      · rw [h] at h2; simp [h2]

theorem maxVersion_not_lt {l : List SemVer} {v : SemVer}
    (h : maxVersion l = some v) : ∀ u ∈ l, ltVer v u = false := by
  intro u hu
  cases l with
  | nil => simp [maxVersion] at h
  | cons a vs =>
      simp only [maxVersion, Option.some.injEq] at h
      subst h
      exact foldl_max_not_lt vs a u (List.mem_cons.mp hu)

theorem processRequests_go (res : ResolutionRequest → Except String (Option SemVer))
    (reqs : List ResolutionRequest) :
    ∀ st : InstallState,
      reqs.foldl (processStep res) st =
        ⟨st.resolved ++ reqs.filterMap (resolvedEntry res),
         st.failures ++ reqs.filterMap (failureEntry res)⟩ := by
  induction reqs with
  | nil =>
      intro st
      simp
  | cons r reqs ih =>
      intro st
      simp only [List.foldl_cons]
      rw [ih]
      unfold processStep resolvedEntry failureEntry
      cases hres : res r with
      | error e => simp [List.filterMap_cons, hres]
      | ok o =>
          cases o with
          | none => simp [List.filterMap_cons, hres]
          | some v => simp [List.filterMap_cons, hres]

theorem processRequests_resolved (res : ResolutionRequest → Except String (Option SemVer))
    (reqs : List ResolutionRequest) :
    (processRequests res reqs).resolved = reqs.filterMap (resolvedEntry res) := by
  unfold processRequests
  rw [processRequests_go]
  simp

theorem processRequests_failures (res : ResolutionRequest → Except String (Option SemVer))
    (reqs : List ResolutionRequest) :
    (processRequests res reqs).failures = reqs.filterMap (failureEntry res) := by
  unfold processRequests
  rw [processRequests_go]
  simp

theorem lookupA_append_left {α β : Type} [DecidableEq α] (k : α)
    {a : List (α × β)} {v : β} (b : List (α × β)) (h : lookupA k a = some v) :
    lookupA k (a ++ b) = some v := by
  induction a with
  | nil => simp [lookupA] at h
  | cons p rest ih =>
      obtain ⟨k', v'⟩ := p
      simp only [lookupA] at h
      simp only [List.cons_append, lookupA]
      by_cases hk : k' = k
      · simp only [hk, if_true] at h ⊢
        exact h
      · simp only [hk, if_false] at h ⊢
        exact ih h

theorem lookupA_append_right {α β : Type} [DecidableEq α] (k : α)
    {a : List (α × β)} (b : List (α × β)) (h : lookupA k a = none) :
    lookupA k (a ++ b) = lookupA k b := by
  induction a with
  | nil => simp
  | cons p rest ih =>
      obtain ⟨k', v'⟩ := p
      simp only [lookupA] at h
      simp only [List.cons_append, lookupA]
      by_cases hk : k' = k
      · simp only [hk, if_true] at h
        simp at h
      · simp only [hk, if_false] at h ⊢
        exact ih h

theorem lookupA_map_value {α β γ : Type} [DecidableEq α] (k : α)
    (g : α → β → γ) (l : List (α × β)) :
    lookupA k (l.map (fun p => (p.1, g p.1 p.2))) = (lookupA k l).map (g k) := by
  induction l with
  | nil => simp [lookupA]
  | cons p rest ih =>
      obtain ⟨k', v'⟩ := p
      simp only [List.map_cons, lookupA]
      by_cases hk : k' = k
      · subst hk
        simp
      · simp only [hk, if_false]
        exact ih

theorem lookupA_filter_none {α β : Type} [DecidableEq α] (k : α)
    (P : α × β → Bool) {l : List (α × β)} (h : lookupA k l = none) :
    lookupA k (l.filter P) = none := by
  induction l with
  | nil => exact h
  | cons p rest ih =>
      obtain ⟨k', v'⟩ := p
      simp only [lookupA] at h
      by_cases hk : k' = k
      · simp only [hk, if_true] at h
        simp at h
      · simp only [hk, if_false] at h
        rw [List.filter_cons]
        by_cases hp : P (k', v') = true
        · rw [if_pos hp]
          simp only [lookupA, hk, if_false]
          exact ih h
        · rw [if_neg hp]
          exact ih h

theorem lookupA_jsSpread_absent (old upd : List (String × String)) (n : String)
    (h : lookupA n upd = none) :
    lookupA n (jsSpread old upd) = lookupA n old := by
  unfold jsSpread
  cases hold : lookupA n old with
  | none =>
      have h1 : lookupA n (old.map (fun p => (p.1, (lookupA p.1 upd).getD p.2))) = none := by
        rw [lookupA_map_value n (fun k v => (lookupA k upd).getD v) old, hold]
        rfl
      rw [lookupA_append_right n _ h1]
      exact lookupA_filter_none n _ h
  | some v =>
      have h1 : lookupA n (old.map (fun p => (p.1, (lookupA p.1 upd).getD p.2))) =
          some ((lookupA n upd).getD v) := by
        rw [lookupA_map_value n (fun k v => (lookupA k upd).getD v) old, hold]
        rfl
      rw [h] at h1
      simp only [Option.getD_none] at h1
      exact lookupA_append_left n _ h1

theorem lookupA_overridesFromResolved_none (resolved : List (String × SemVer))
    (n : String) (h : lookupA n resolved = none) :
    lookupA n (overridesFromResolved resolved) = none := by
  unfold overridesFromResolved
  rw [lookupA_map_value n (fun _ v => versionString v) resolved, h]
  rfl

theorem mem_resolved_names_iff (res : ResolutionRequest → Except String (Option SemVer))
    (reqs : List ResolutionRequest) (n : String) :
    n ∈ (processRequests res reqs).resolved.map Prod.fst ↔
      ∃ req, req ∈ reqs ∧ req.name = n ∧ ∃ v, res req = .ok (some v) := by
  rw [processRequests_resolved]
  constructor
  · intro h
    rw [List.mem_map] at h
    obtain ⟨p, hp, hfst⟩ := h
    rw [List.mem_filterMap] at hp
    obtain ⟨req, hreq, hent⟩ := hp
    unfold resolvedEntry at hent
    cases hres : res req with
    | error e => rw [hres] at hent; simp at hent
    | ok o =>
        cases o with
        | none => rw [hres] at hent; simp at hent
        | some v =>
            rw [hres] at hent
            simp only [Option.some.injEq] at hent
            refine ⟨req, hreq, ?_, v, hres⟩
            rw [← hfst, ← hent]
  · intro h
    obtain ⟨req, hreq, hname, v, hres⟩ := h
    rw [List.mem_map]
    refine ⟨(req.name, v), ?_, hname⟩
    rw [List.mem_filterMap]
    refine ⟨req, hreq, ?_⟩
    unfold resolvedEntry
    rw [hres]

theorem mem_failure_names_iff (res : ResolutionRequest → Except String (Option SemVer))
    (reqs : List ResolutionRequest) (n : String) :
    n ∈ (processRequests res reqs).failures.map Failure.name ↔
      ∃ req, req ∈ reqs ∧ req.name = n ∧
        (res req = .ok none ∨ ∃ e, res req = .error e) := by
  rw [processRequests_failures]
  constructor
  · intro h
    rw [List.mem_map] at h
    obtain ⟨f, hf, hname⟩ := h
    rw [List.mem_filterMap] at hf
    obtain ⟨req, hreq, hent⟩ := hf
    unfold failureEntry at hent
    cases hres : res req with
    | error e =>
        rw [hres] at hent
        simp only [Option.some.injEq] at hent
        refine ⟨req, hreq, ?_, Or.inr ⟨e, hres⟩⟩
        rw [← hname, ← hent]
    | ok o =>
        cases o with
        | none =>
            rw [hres] at hent
            simp only [Option.some.injEq] at hent
            refine ⟨req, hreq, ?_, Or.inl hres⟩
            rw [← hname, ← hent]
        | some v => rw [hres] at hent; simp at hent
  · intro h
    obtain ⟨req, hreq, hname, hcase⟩ := h
    rw [List.mem_map]
    rcases hcase with hres | ⟨e, hres⟩
    · refine ⟨⟨req.name, req.range, noVersionReason⟩, ?_, hname⟩
      rw [List.mem_filterMap]
      refine ⟨req, hreq, ?_⟩
      unfold failureEntry
      rw [hres]
    · refine ⟨⟨req.name, req.range, e⟩, ?_, hname⟩
      rw [List.mem_filterMap]
      refine ⟨req, hreq, ?_⟩
      unfold failureEntry
      rw [hres]

/-- C1: among all candidate versions that satisfy the range and the age
requirement, resolution returns the highest by semantic-version ordering
— for any two qualifying versions `v1 < v2`, the result is never `v1` —
and on the literal scenario (package `alpha` with `1.0.0` 400 days old,
`1.1.0` 150 days old, `1.2.0` 20 days old, `minAgeDays = 90`), resolving
range `*` returns `1.1.0`. -/
theorem C1_highest_qualifying_selected :
    (∀ (meta : PackageMetadata) (range : RangeExpr) (cutoffDate : Int)
        (ignoreAge : Bool) (v1 v2 : SemVer),
        v1 ∈ qualifyingSet meta range cutoffDate ignoreAge →
        v2 ∈ qualifyingSet meta range cutoffDate ignoreAge →
        ltVer v1 v2 = true →
        resolveSafeVersion meta range cutoffDate ignoreAge ≠ some v1) ∧
    resolveSafeVersion alphaMeta .star cutoff90 false = some ⟨1, 1, 0⟩ := by
  constructor
  · intro meta range cutoffDate ignoreAge v1 v2 h1 h2 hlt hres
    unfold resolveSafeVersion at hres
    have hmax := maxVersion_not_lt hres v2 h2
    rw [hlt] at hmax
    simp at hmax
  · decide

/-- C1 witness: on the `alpha` scenario both `1.0.0` and `1.1.0` qualify
with `1.0.0 < 1.1.0`, so resolution does not return `1.0.0`. -/
theorem C1_witness :
    resolveSafeVersion alphaMeta .star cutoff90 false ≠ some ⟨1, 0, 0⟩ :=
  C1_highest_qualifying_selected.1 alphaMeta .star cutoff90 false
    ⟨1, 0, 0⟩ ⟨1, 1, 0⟩ (by decide) (by decide) (by decide)

/-- C2: with age filtering active (`ignoreAge = false`), any version the
resolver returns has a `publishTimes` entry that exists, parses to a
valid timestamp, and is strictly earlier than the cutoff date; hence a
candidate with a missing or unparsable timestamp is never selected, and
resolution (being a total function) never crashes on one. -/
theorem C2_age_filter_strict (meta : PackageMetadata) (range : RangeExpr)
    (cutoffDate : Int) (v : SemVer)
    (h : resolveSafeVersion meta range cutoffDate false = some v) :
    ∃ t : Int, lookupA v meta.publishTimes = some (some t) ∧ t < cutoffDate := by
  unfold resolveSafeVersion at h
  have hmem := maxVersion_mem h
  unfold qualifyingSet at hmem
  simp only [Bool.false_eq_true, if_false] at hmem
  rw [List.mem_filter] at hmem
  obtain ⟨-, hage⟩ := hmem
  unfold ageOk at hage
  cases hl : lookupA v meta.publishTimes with
  | none => rw [hl] at hage; simp at hage
  | some o =>
      cases o with
      | none => rw [hl] at hage; simp at hage
      | some t =>
          rw [hl] at hage
          simp only [decide_eq_true_eq] at hage
          exact ⟨t, rfl, hage⟩

/-- C2 witness: the `alpha` scenario resolves to `1.1.0`, whose publish
timestamp therefore exists and precedes the cutoff. -/
theorem C2_witness :
    ∃ t : Int, lookupA (⟨1, 1, 0⟩ : SemVer) alphaMeta.publishTimes = some (some t) ∧
      t < cutoff90 :=
  C2_age_filter_strict alphaMeta .star cutoff90 ⟨1, 1, 0⟩ (by decide)

/-- C3: the install action invokes the resolver with `ignoreAge = true`
for every request whose package name is in the ignore set; with
`ignoreAge = true` the age filter is skipped, so the result does not
depend on the cutoff date at all; and on the literal scenario (package
`beta`, only `2.0.0` at 220 days, range `^2.0.0`, `ignoreAge = true`,
`minAgeDays = 90`) resolution returns `2.0.0`. -/
theorem C3_ignore_set_bypasses_age :
    (∀ (registry : String) (now minAgeDays : Int) (ignoreSet : List String)
        (deps : List (String × RangeExpr)) (req : ResolutionRequest),
        req ∈ installRequests registry now minAgeDays ignoreSet deps →
        req.name ∈ ignoreSet → req.ignoreAge = true) ∧
    (∀ (meta : PackageMetadata) (range : RangeExpr) (c c' : Int),
        resolveSafeVersion meta range c true = resolveSafeVersion meta range c' true) ∧
    resolveSafeVersion betaMeta (.caret ⟨2, 0, 0⟩) cutoff90 true = some ⟨2, 0, 0⟩ := by
  refine ⟨?_, ?_, by decide⟩
  · intro registry now minAgeDays ignoreSet deps req hreq hname
    unfold installRequests at hreq
    rw [List.mem_map] at hreq
    obtain ⟨p, hp, hreq⟩ := hreq
    rw [← hreq] at hname ⊢
    simp only at hname ⊢
    exact List.elem_eq_true_of_mem hname
  · intro meta range c c'
    simp [resolveSafeVersion, qualifyingSet]

/-- C3 witness: a concrete install over `[("beta", ^2.0.0)]` with `beta`
in the ignore set issues its request with `ignoreAge = true`. -/
theorem C3_witness :
    (ResolutionRequest.mk "beta" (.caret ⟨2, 0, 0⟩) "https://registry.npmjs.org"
      (installCutoff nowMs 90) true).ignoreAge = true :=
  C3_ignore_set_bypasses_age.1 "https://registry.npmjs.org" nowMs 90 ["beta"]
    [("beta", .caret ⟨2, 0, 0⟩)] _ (by decide) (by decide)

/-- C4 counterexample: for `staleTagMeta` the `latest` dist-tag names
`1.2.0`, which exists as a key of `versions`, yet resolving the literal
range `latest` with age filtering active returns the no-qualifying-version
signal rather than `1.2.0`, because the tagged version is younger than the
cutoff. -/
theorem C4_counterexample :
    lookupA "latest" staleTagMeta.distTags = some ⟨1, 2, 0⟩ ∧
    (⟨1, 2, 0⟩ : SemVer) ∈ staleTagMeta.versions ∧
    resolveSafeVersion staleTagMeta .latestTag cutoff90 false = none := by
  decide

/-- C4 (amended): resolving the literal range `latest` returns exactly the
version named by the registry's `latest` distribution tag provided that
version also exists as a key of the versions object AND passes the age
filter (or `ignoreAge` is true); in every other case the result is the
no-qualifying-version signal, not an error. -/
theorem C4_latest_dist_tag (meta : PackageMetadata) (cutoffDate : Int)
    (ignoreAge : Bool) :
    resolveSafeVersion meta .latestTag cutoffDate ignoreAge =
      (match lookupA "latest" meta.distTags with
        | some v =>
            if v ∈ meta.versions ∧ (ignoreAge = true ∨ ageOk meta cutoffDate v = true)
            then some v else none
        | none => none) := by
  unfold resolveSafeVersion qualifyingSet candidateSet
  cases hl : lookupA "latest" meta.distTags with
  | none => cases ignoreAge <;> simp [maxVersion]
  | some v =>
      by_cases hv : v ∈ meta.versions
      · cases ignoreAge with
        | true => simp [hv, maxVersion]
        | false =>
            by_cases ha : ageOk meta cutoffDate v = true
            · simp [hv, ha, maxVersion, List.filter_cons]
            · simp only [Bool.not_eq_true] at ha
              simp [hv, ha, maxVersion, List.filter_cons]
      · cases ignoreAge <;> simp [hv, maxVersion]

/-- C5: a failure (thrown error or null result) while resolving one
package never aborts the rest of the batch — every request contributes
exactly one outcome record no matter what the resolver does on the
others, and every error is caught at the per-request boundary and
converted into the structured failure record `{name, range, reason}`. -/
theorem C5_per_request_isolation :
    (∀ (res : ResolutionRequest → Except String (Option SemVer))
        (reqs : List ResolutionRequest),
        (processRequests res reqs).resolved.length +
          (processRequests res reqs).failures.length = reqs.length) ∧
    (∀ (res : ResolutionRequest → Except String (Option SemVer))
        (reqs : List ResolutionRequest) (req : ResolutionRequest) (e : String),
        req ∈ reqs → res req = .error e →
        Failure.mk req.name req.range e ∈ (processRequests res reqs).failures) := by
  constructor
  · intro res reqs
    rw [processRequests_resolved, processRequests_failures]
    induction reqs with
    | nil => simp
    | cons r rs ih =>
        cases hres : res r with
        | error e =>
            simp only [List.filterMap_cons, resolvedEntry, failureEntry, hres,
              List.length_cons]
            omega
        | ok o =>
            cases o with
            | none =>
                simp only [List.filterMap_cons, resolvedEntry, failureEntry, hres,
                  List.length_cons]
                omega
            | some v =>
                simp only [List.filterMap_cons, resolvedEntry, failureEntry, hres,
                  List.length_cons]
                omega
  · intro res reqs req e hmem hres
    rw [processRequests_failures, List.mem_filterMap]
    refine ⟨req, hmem, ?_⟩
    unfold failureEntry
    rw [hres]

/-- C5 witness: a one-request batch whose resolver throws contributes its
structured failure record. -/
theorem C5_witness :
    Failure.mk "alpha" .star "boom" ∈
      (processRequests (fun _ => .error "boom")
        [⟨"alpha", .star, "reg", 0, false⟩]).failures :=
  C5_per_request_isolation.2 (fun _ => .error "boom")
    [⟨"alpha", .star, "reg", 0, false⟩] ⟨"alpha", .star, "reg", 0, false⟩ "boom"
    (List.mem_singleton.mpr rfl) rfl

/-- C6: when the requested names are pairwise distinct (they are keys of
a JS `Map`), every requested name appears in the resolved map or the
failure list, never in both; and every failure record carries either the
no-qualifying-version reason for a `null` result or the thrown error's
message. -/
theorem C6_exactly_one_outcome
    (res : ResolutionRequest → Except String (Option SemVer))
    (reqs : List ResolutionRequest)
    (hnd : (reqs.map ResolutionRequest.name).Nodup) :
    (∀ n : String, n ∈ reqs.map ResolutionRequest.name ↔
        (n ∈ (processRequests res reqs).resolved.map Prod.fst ∨
          n ∈ (processRequests res reqs).failures.map Failure.name)) ∧
    (∀ n : String, ¬ (n ∈ (processRequests res reqs).resolved.map Prod.fst ∧
          n ∈ (processRequests res reqs).failures.map Failure.name)) ∧
    (∀ f ∈ (processRequests res reqs).failures,
        ∃ req, req ∈ reqs ∧ req.name = f.name ∧ req.range = f.range ∧
          ((res req = .ok none ∧ f.reason = noVersionReason) ∨
            res req = .error f.reason)) := by
  refine ⟨?_, ?_, ?_⟩
  · intro n
    constructor
    · intro h
      rw [List.mem_map] at h
      obtain ⟨req, hreq, hname⟩ := h
      cases hres : res req with
      | error e =>
          right
          rw [mem_failure_names_iff]
          exact ⟨req, hreq, hname, Or.inr ⟨e, hres⟩⟩
      | ok o =>
          cases o with
          | none =>
              right
              rw [mem_failure_names_iff]
              exact ⟨req, hreq, hname, Or.inl hres⟩
          | some v =>
              left
              rw [mem_resolved_names_iff]
              exact ⟨req, hreq, hname, v, hres⟩
    · intro h
      rcases h with h | h
      · rw [mem_resolved_names_iff] at h
        obtain ⟨req, hreq, hname, -⟩ := h
        rw [List.mem_map]
        exact ⟨req, hreq, hname⟩
      · rw [mem_failure_names_iff] at h
        obtain ⟨req, hreq, hname, -⟩ := h
        rw [List.mem_map]
        exact ⟨req, hreq, hname⟩
  · intro n h
    obtain ⟨h1, h2⟩ := h
    rw [mem_resolved_names_iff] at h1
    rw [mem_failure_names_iff] at h2
    obtain ⟨r1, hr1, hn1, v, hres1⟩ := h1
    obtain ⟨r2, hr2, hn2, hcase⟩ := h2
    have heq : r1 = r2 :=
      List.inj_on_of_nodup_map hnd hr1 hr2 (by rw [hn1, hn2])
    rw [heq] at hres1
    rcases hcase with hres2 | ⟨e, hres2⟩
    · rw [hres1] at hres2
      simp at hres2
    · rw [hres1] at hres2
      simp at hres2
  · intro f hf
    rw [processRequests_failures, List.mem_filterMap] at hf
    obtain ⟨req, hreq, hent⟩ := hf
    unfold failureEntry at hent
    cases hres : res req with
    | error e =>
        rw [hres] at hent
        simp only [Option.some.injEq] at hent
        rw [← hent]
        exact ⟨req, hreq, rfl, rfl, Or.inr hres⟩
    | ok o =>
        cases o with
        | none =>
            rw [hres] at hent
            simp only [Option.some.injEq] at hent
            rw [← hent]
            exact ⟨req, hreq, rfl, rfl, Or.inl ⟨hres, rfl⟩⟩
        | some v => rw [hres] at hent; simp at hent

/-- C6 witness: a batch with one succeeding and one failing name has no
name in both outcome collections. -/
theorem C6_witness :
    ¬ ("alpha" ∈ (processRequests
          (fun r => if r.name = "alpha" then .ok (some ⟨1, 1, 0⟩) else .ok none)
          [⟨"alpha", .star, "reg", 0, false⟩,
           ⟨"beta", .star, "reg", 0, false⟩]).resolved.map Prod.fst ∧
        "alpha" ∈ (processRequests
          (fun r => if r.name = "alpha" then .ok (some ⟨1, 1, 0⟩) else .ok none)
          [⟨"alpha", .star, "reg", 0, false⟩,
           ⟨"beta", .star, "reg", 0, false⟩]).failures.map Failure.name) :=
  (C6_exactly_one_outcome
      (fun r => if r.name = "alpha" then .ok (some ⟨1, 1, 0⟩) else .ok none)
      [⟨"alpha", .star, "reg", 0, false⟩, ⟨"beta", .star, "reg", 0, false⟩]
      (by decide)).2.1 "alpha"

/-- C7: every resolution request the install action issues carries the
cutoff date `now − minAgeDays·24·60·60·1000` milliseconds. -/
theorem C7_cutoff_formula (registry : String) (now minAgeDays : Int)
    (ignoreSet : List String) (deps : List (String × RangeExpr))
    (req : ResolutionRequest)
    (h : req ∈ installRequests registry now minAgeDays ignoreSet deps) :
    req.cutoffDate = now - minAgeDays * 24 * 60 * 60 * 1000 := by
  unfold installRequests at h
  rw [List.mem_map] at h
  obtain ⟨p, hp, hq⟩ := h
  rw [← hq]
  rfl

/-- C7 witness: the request for `alpha` in a concrete install carries
exactly that cutoff. -/
theorem C7_witness :
    (ResolutionRequest.mk "alpha" .star "reg" (installCutoff nowMs 90)
        false).cutoffDate = nowMs - 90 * 24 * 60 * 60 * 1000 :=
  C7_cutoff_formula "reg" nowMs 90 [] [("alpha", .star)]
    (ResolutionRequest.mk "alpha" .star "reg" (installCutoff nowMs 90) false)
    (by decide)

/-- C8: the resolved map and the failure list are produced by a single
sequential pass over the input entries — each equals the input list
restricted (in input order) to the requests with that outcome, so their
iteration order is the input order, not any completion order. -/
theorem C8_input_order (res : ResolutionRequest → Except String (Option SemVer))
    (reqs : List ResolutionRequest) :
    (processRequests res reqs).resolved = reqs.filterMap (resolvedEntry res) ∧
    (processRequests res reqs).failures = reqs.filterMap (failureEntry res) :=
  ⟨processRequests_resolved res reqs, processRequests_failures res reqs⟩

/-- C9: `parsePackageSpec` totally maps every non-empty spec to a
`{name, range}` pair: a scoped spec (leading `@`) splits at the second
`@` when one exists and otherwise gets range `latest`; an unscoped spec
splits at the last `@` having positive index; an empty suffix after `@`
falls back to `latest`; the empty string is the one error case. -/
theorem C9_parsePackageSpec_total :
    (∃ msg, parsePackageSpec [] = .error msg) ∧
    (∀ s : List Char, s ≠ [] → ∃ p, parsePackageSpec s = .ok p) ∧
    (∀ (c : Char) (rest : List Char) (i : Nat), c = '@' →
        indexOfFrom '@' 1 (c :: rest) = some i →
        parsePackageSpec (c :: rest) =
          .ok ((c :: rest).take i, orLatest ((c :: rest).drop (i + 1)))) ∧
    (∀ (c : Char) (rest : List Char), c = '@' →
        indexOfFrom '@' 1 (c :: rest) = none →
        parsePackageSpec (c :: rest) = .ok (c :: rest, "latest".toList)) ∧
    (∀ (c : Char) (rest : List Char) (i : Nat), c ≠ '@' →
        lastIndexOf '@' (c :: rest) = some i → 0 < i →
        parsePackageSpec (c :: rest) =
          .ok ((c :: rest).take i, orLatest ((c :: rest).drop (i + 1)))) ∧
    (∀ (c : Char) (rest : List Char), c ≠ '@' →
        (lastIndexOf '@' (c :: rest) = none ∨ lastIndexOf '@' (c :: rest) = some 0) →
        parsePackageSpec (c :: rest) = .ok (c :: rest, "latest".toList)) := by
  refine ⟨⟨"Empty package spec provided", rfl⟩, ?_, ?_, ?_, ?_, ?_⟩
  · intro s hs
    match s with
    | [] => exact absurd rfl hs
    | c :: rest =>
        simp only [parsePackageSpec]
        by_cases hc : c = '@'
        · subst hc
          cases hidx : indexOfFrom '@' 1 ('@' :: rest) with
          | none => simp [hidx]
          | some i => simp [hidx]
        · cases hidx : lastIndexOf '@' (c :: rest) with
          | none => simp [hc, hidx]
          | some i =>
              by_cases hi : 0 < i
              · simp [hc, hidx, hi]
              · simp [hc, hidx, hi]
  · intro c rest i hc hidx
    subst hc
    simp [parsePackageSpec, hidx]
  · intro c rest hc hidx
    subst hc
    simp [parsePackageSpec, hidx]
  · intro c rest i hc hidx hi
    simp [parsePackageSpec, hc, hidx, hi]
  · intro c rest hc hidx
    rcases hidx with hidx | hidx
    · simp [parsePackageSpec, hc, hidx]
    · simp [parsePackageSpec, hc, hidx]

/-- C9 witness: the non-empty spec `alpha` parses successfully. -/
theorem C9_witness : ∃ p, parsePackageSpec ("alpha".toList) = .ok p :=
  C9_parsePackageSpec_total.2.1 ("alpha".toList) (by decide)

/-- C10: the overrides strategy only adds or updates entries for resolved
names — looking up any name outside the resolved set in the rewritten
npm `overrides` (resp. `pnpm.overrides`) table gives exactly what the
original `package.json` gave — and the other pnpm configuration fields,
the other manager's table and the remaining top-level fields are written
back unchanged. -/
theorem C10_overrides_frame (resolved : List (String × SemVer))
    (pkg : PackageJsonFile) (n : String)
    (h : lookupA n resolved = none) :
    (lookupA n (((runStrategyOverrides .npm resolved pkg).overrides).getD []) =
      lookupA n (pkg.overrides.getD [])) ∧
    (lookupA n (pnpmOverridesOf (runStrategyOverrides .pnpm resolved pkg)) =
      lookupA n (pnpmOverridesOf pkg)) ∧
    pnpmExtraOf (runStrategyOverrides .pnpm resolved pkg) = pnpmExtraOf pkg ∧
    (runStrategyOverrides .npm resolved pkg).pnpm = pkg.pnpm ∧
    (runStrategyOverrides .pnpm resolved pkg).overrides = pkg.overrides ∧
    (runStrategyOverrides .npm resolved pkg).rest = pkg.rest ∧
    (runStrategyOverrides .pnpm resolved pkg).rest = pkg.rest := by
  have hov := lookupA_overridesFromResolved_none resolved n h
  refine ⟨?_, ?_, rfl, rfl, rfl, rfl, rfl⟩
  · show lookupA n ((some (jsSpread (pkg.overrides.getD [])
        (overridesFromResolved resolved))).getD []) = _
    rw [Option.getD_some]
    exact lookupA_jsSpread_absent _ _ n hov
  · show lookupA n (pnpmOverridesOf
        { pkg with pnpm := some ⟨some (jsSpread ((pkg.pnpm.getD ⟨none, []⟩).overrides.getD [])
            (overridesFromResolved resolved)), (pkg.pnpm.getD ⟨none, []⟩).extraFields⟩ }) = _
    unfold pnpmOverridesOf
    simp only [Option.getD_some]
    exact lookupA_jsSpread_absent _ _ n hov

/-- C10 witness: with `alpha` resolved, the pre-existing override entry
`left` survives the rewrite untouched. -/
theorem C10_witness :
    lookupA "left"
        (((runStrategyOverrides .npm [("alpha", ⟨2, 0, 0⟩)] samplePkg).overrides).getD []) =
      lookupA "left" (samplePkg.overrides.getD []) :=
  (C10_overrides_frame [("alpha", ⟨2, 0, 0⟩)] samplePkg "left" (by decide)).1

end SafeNpm

